import Mathlib

/-!
Verification of the greptimedb storage-engine specification.

Part 1 embeds the arrow-array conversion helper
(src/datatypes/src/vectors/helper.rs).

Part 2 models the region manifest and its recovery protocol
(RegionManifest, RegionMetaAction, RegionImpl::recover_from_manifest).
The implementation of the storage crate is not part of the source tree
here; only its tests (src/storage/src/region/tests.rs) are. The model is
therefore written from the specification, with every behavioural choice
pinned by the assertions of those tests.

Part 3 models the region write path, memtable and scan
(RegionImpl::write, MemTable, TesterBase::full_scan), likewise from the
specification and the tests.
-/

namespace GreptimeSpec

/-! ## Part 1: Helper::try_into_vector (src/datatypes/src/vectors/helper.rs) -/

/-- Arrow time units, as matched by `Helper::try_into_vector`. -/
inductive TimeUnit where
  | second
  | millisecond
  | microsecond
  | nanosecond
deriving DecidableEq, Repr

/-- Arrow data types, exactly the variants enumerated by the match in
`Helper::try_into_vector` (helper.rs lines 222-269). -/
inductive ArrowDataType where
  | null
  | boolean
  | largeBinary
  | int8
  | int16
  | int32
  | int64
  | uint8
  | uint16
  | uint32
  | uint64
  | float32
  | float64
  | utf8
  | date32
  | date64
  | list
  | timestamp (unit : TimeUnit)
  | float16
  | time32
  | time64
  | duration
  | interval
  | binary
  | fixedSizeBinary
  | largeUtf8
  | largeList
  | fixedSizeList
  | struct
  | union
  | dictionary
  | decimal128
  | decimal256
  | map
deriving DecidableEq, Repr

/-- Outcome of `Helper::try_into_vector`: either `Ok` with the produced
vector kind (named by the concrete vector type the source constructs), or
a panic raised by the `unimplemented!` arm. The inner
`try_from_arrow_array` downcasts an array to the concrete array type that
its own data type dictates, so on the arms below it succeeds; the model
records the vector kind it returns. -/
inductive ConvOutcome where
  | ok (vectorKind : String)
  | panicUnimplemented
deriving DecidableEq, Repr

/-- Shallow embedding of `Helper::try_into_vector` (helper.rs lines
221-271), at the granularity of the arrow data type of the input array:
each supported data type maps to `Ok` with the vector kind the source
builds, every remaining data type falls into the `unimplemented!` arm. -/
def tryIntoVector : ArrowDataType → ConvOutcome
  | .null => .ok "NullVector"
  | .boolean => .ok "BooleanVector"
  | .largeBinary => .ok "BinaryVector"
  | .int8 => .ok "Int8Vector"
  | .int16 => .ok "Int16Vector"
  | .int32 => .ok "Int32Vector"
  | .int64 => .ok "Int64Vector"
  | .uint8 => .ok "UInt8Vector"
  | .uint16 => .ok "UInt16Vector"
  | .uint32 => .ok "UInt32Vector"
  | .uint64 => .ok "UInt64Vector"
  | .float32 => .ok "Float32Vector"
  | .float64 => .ok "Float64Vector"
  | .utf8 => .ok "StringVector"
  | .date32 => .ok "DateVector"
  | .date64 => .ok "DateTimeVector"
  | .list => .ok "ListVector"
  | .timestamp .second => .ok "TimestampSecondVector"
  | .timestamp .millisecond => .ok "TimestampMillisecondVector"
  | .timestamp .microsecond => .ok "TimestampMicrosecondVector"
  | .timestamp .nanosecond => .ok "TimestampNanosecondVector"
  | .float16 => .panicUnimplemented
  | .time32 => .panicUnimplemented
  | .time64 => .panicUnimplemented
  | .duration => .panicUnimplemented
  | .interval => .panicUnimplemented
  | .binary => .panicUnimplemented
  | .fixedSizeBinary => .panicUnimplemented
  | .largeUtf8 => .panicUnimplemented
  | .largeList => .panicUnimplemented
  | .fixedSizeList => .panicUnimplemented
  | .struct => .panicUnimplemented
  | .union => .panicUnimplemented
  | .dictionary => .panicUnimplemented
  | .decimal128 => .panicUnimplemented
  | .decimal256 => .panicUnimplemented
  | .map => .panicUnimplemented

/-- The list of supported data types as the claim states it: Null,
Boolean, LargeBinary, Int8-64, UInt8-64, Float32/64, Utf8, Date32,
Date64, List, and Timestamp in any of the four units. -/
def claimSupported : ArrowDataType → Bool
  | .null | .boolean | .largeBinary => true
  | .int8 | .int16 | .int32 | .int64 => true
  | .uint8 | .uint16 | .uint32 | .uint64 => true
  | .float32 | .float64 | .utf8 | .date32 | .date64 | .list => true
  | .timestamp _ => true
  | _ => false

/-- Projection testing whether a conversion outcome is an `Ok`. -/
def ConvOutcome.isOk : ConvOutcome → Bool
  | .ok _ => true
  | .panicUnimplemented => false

/-! ## Part 2: Manifest model

Modelled from the spec: the storage crate sources are absent from the
tree, so `RegionManifest`, `RegionMetaAction` and
`RegionImpl::recover_from_manifest` are reconstructed from spec sections
3, 4.4 and 8, pinned by the assertions of `test_recover_region_manifets`
(src/storage/src/region/tests.rs lines 263-338). -/

/-- Modelled from the spec: the immutable region metadata descriptor
carried by a `Change` action. Only identity matters to the claims, so it
is reduced to a name tag. -/
structure RegionMetadata where
  regionName : String
deriving DecidableEq, Repr

/-- Modelled from the spec: metadata of one SST file recorded by an
`Edit` action (file name and target level, cf. `FileMeta` used by
`build_region_edit` which places every file at level 0). -/
structure FileMeta where
  fileName : String
  level : Nat
deriving DecidableEq, Repr

/-- Modelled from the spec: an `Edit` manifest action, `{added files,
removed files, flushed_sequence}` (spec section 3). -/
structure RegionEdit where
  flushedSequence : Nat
  filesToAdd : List FileMeta
  filesToRemove : List String
deriving DecidableEq, Repr

/-- Modelled from the spec: a `Change` manifest action,
`{metadata, committed_sequence}` (spec section 3). -/
structure RegionChange where
  metadata : RegionMetadata
  committedSequence : Nat
deriving DecidableEq, Repr

/-- Modelled from the spec: the tagged `ManifestAction` union
`{Change, Edit}` (spec section 3). -/
inductive RegionMetaAction where
  | change (c : RegionChange)
  | edit (e : RegionEdit)
deriving DecidableEq, Repr

/-- An action list passed to one `update` call
(`RegionMetaActionList`). -/
abbrev RegionMetaActionList := List RegionMetaAction

/-- Modelled from the spec: the manifest is an append-only log of action
lists, each persisted as a single record tagged with a monotonically
increasing manifest version (spec sections 3 and 4.4). `lastVersion`
holds the version of the most recent record; the test asserts it counts
`update` calls on a fresh manifest (tests.rs line 337). -/
structure RegionManifest where
  records : List (Nat × RegionMetaActionList)
  lastVersion : Nat
deriving DecidableEq, Repr

/-- A freshly created manifest (`RegionManifest::new`): no records. -/
def RegionManifest.new : RegionManifest :=
  { records := [], lastVersion := 0 }

/-- Modelled from the spec: `update(action_list) -> manifest_version`
appends the action list as one atomic record and returns the assigned,
monotonically increasing manifest version (spec section 4.4). -/
def RegionManifest.update (m : RegionManifest) (actions : RegionMetaActionList) :
    RegionManifest × Nat :=
  let v := m.lastVersion + 1
  ({ records := m.records ++ [(v, actions)], lastVersion := v }, v)

/-- Apply a list of `update` calls to a fresh manifest. -/
def applyUpdates (us : List RegionMetaActionList) : RegionManifest :=
  us.foldl (fun m acts => (m.update acts).1) RegionManifest.new

/-- All actions of a manifest in record order, each paired with the
manifest version of the record that carries it. -/
def RegionManifest.allActions (m : RegionManifest) : List (Nat × RegionMetaAction) :=
  m.records.flatMap (fun r => r.2.map (fun a => (r.1, a)))

/-- Modelled from the spec: the recovered `Version` snapshot
`{metadata, file set, flushed_sequence, manifest_version}` (spec section
3; the memtable component carries no data at recovery time and is
omitted). -/
structure Version where
  metadata : RegionMetadata
  manifestVersion : Nat
  flushedSequence : Nat
  files : List FileMeta
deriving DecidableEq, Repr

/-- Modelled from the spec: folding one `Edit` into a `Version` removes
the named files, adds the new ones and records the flushed sequence of
the edit (spec sections 4.4 and 8). The manifest version of the
`Version` is the version of the record whose `Change` created it and is
not touched by edits, per the assertion `version.manifest_version() == 1`
in tests.rs line 328. -/
def Version.applyEdit (v : Version) (e : RegionEdit) : Version :=
  { v with
    flushedSequence := e.flushedSequence
    files := v.files.filter (fun f => !(decide (f.fileName ∈ e.filesToRemove))) ++ e.filesToAdd }

/-- Fold a list of edits into a version in order. -/
def Version.applyEdits (v : Version) (es : List RegionEdit) : Version :=
  es.foldl Version.applyEdit v

/-- State carried while replaying manifest actions during recovery:
the version reconstructed so far (none until the first `Change`), the
edits seen before any `Change` (replayed once the version exists), and
the recovered-metadata associations `{committed_sequence, metadata}` for
every `Change` after the first. -/
structure RecoverState where
  version : Option Version
  pending : List RegionEdit
  recovered : List (Nat × RegionMetadata)
deriving Repr

/-- Modelled from the spec: replay of one manifest action during
recovery. The first `Change` creates the version (tagged with the
manifest version of its record) and folds in any pending edits; later
`Change` actions feed the recovered-metadata map; `Edit` actions fold
into the version, or are buffered while no version exists yet. -/
def recoverStep (st : RecoverState) (record : Nat × RegionMetaAction) : RecoverState :=
  match record.2, st.version with
  | .change c, none =>
      let base : Version :=
        { metadata := c.metadata, manifestVersion := record.1
          flushedSequence := 0, files := [] }
      { version := some (base.applyEdits st.pending), pending := [], recovered := st.recovered }
  | .change c, some _ =>
      { st with recovered := st.recovered ++ [(c.committedSequence, c.metadata)] }
  | .edit e, none => { st with pending := st.pending ++ [e] }
  | .edit e, some v => { st with version := some (v.applyEdit e) }

/-- Modelled from the spec: `recover_from_manifest` replays every action
from the beginning, folding Edits into a cumulative file set and Changes
into the active metadata, and returns the reconstructed version (none
when no `Change` was ever recorded) together with the
recovered-metadata map (spec section 4.4). -/
def recoverFromManifest (m : RegionManifest) :
    Option Version × List (Nat × RegionMetadata) :=
  let st := m.allActions.foldl recoverStep { version := none, pending := [], recovered := [] }
  (st.version, st.recovered)

/-! ## Part 3: Region write path, memtable and scan

Modelled from the spec: the storage crate sources are absent from the
tree, so `RegionImpl::write`, the memtable and the scan path are
reconstructed from spec sections 3, 4.1, 4.2 and 7, pinned by the test
helpers `TesterBase::put`, `TesterBase::delete` and
`TesterBase::full_scan` (src/storage/src/region/tests.rs lines 61-138)
which exercise a region of schema (timestamp, v0:int64). -/

/-- Column types appearing in the tested region schema. -/
inductive ColType where
  | timestampMillisecond
  | int64
  | uint64
deriving DecidableEq, Repr

/-- An ordered column schema: column name and type. -/
abbrev ColumnSchema := List (String × ColType)

/-- The schema (timestamp, v0:int64) built by `new_metadata` /
`new_write_batch_for_test` in tests.rs. -/
def testColumns : ColumnSchema :=
  [("timestamp", ColType.timestampMillisecond), ("v0", ColType.int64)]

/-- Operation kind of a memtable entry: put or delete (tombstone). -/
inductive OpType where
  | put
  | delete
deriving DecidableEq, Repr

/-- One row mutation batchable in a `WriteBatch`: a put of (timestamp
key, optional v0 value) rows, or a delete of timestamp keys, mirroring
`WriteBatch::put` and `WriteBatch::delete` as driven by the tests. -/
inductive Mutation where
  | putRows (rows : List (Int × Option Int))
  | deleteKeys (keys : List Int)
deriving DecidableEq, Repr

/-- Modelled from the spec: a `WriteBatch` is a set of typed column
mappings representing Put or Delete operations for one commit, validated
against the region metadata before acceptance (spec section 3). -/
structure WriteBatch where
  columns : ColumnSchema
  mutations : List Mutation
deriving DecidableEq, Repr

/-- Modelled from the spec: batch validation rejects a batch referencing
unknown columns or incompatible types (spec section 7c): every column
the batch declares must appear in the region schema with that type. -/
def validateBatch (schema : ColumnSchema) (b : WriteBatch) : Bool :=
  b.columns.all (fun c => decide (c ∈ schema))

/-- A multi-version memtable entry: key (timestamp), value (v0), the
sequence number assigned at write time, and the operation kind.
The memtable is modelled as the list of entries in insertion order,
which for a region is also nondecreasing sequence order. -/
structure Entry where
  key : Int
  value : Option Int
  seq : Nat
  op : OpType
deriving DecidableEq, Repr

/-- Entries produced by applying one mutation at sequence number `s`. -/
def applyMutation (s : Nat) : Mutation → List Entry
  | .putRows rows => rows.map (fun r => { key := r.1, value := r.2, seq := s, op := .put })
  | .deleteKeys keys => keys.map (fun k => { key := k, value := none, seq := s, op := .delete })

/-- Entries produced by applying a batch of mutations at sequence `s`. -/
def applyMutations (s : Nat) (ms : List Mutation) : List Entry :=
  ms.flatMap (applyMutation s)

/-- Number of rows affected by a batch, reported by `write`. -/
def rowCount (ms : List Mutation) : Nat :=
  ms.foldl
    (fun n m => n + match m with | .putRows rows => rows.length | .deleteKeys keys => keys.length)
    0

/-- Errors of the write path: synchronous validation rejection, or a
fatal write-ahead-log append failure (`WalError`). -/
inductive WriteError where
  | validationError
  | walError
deriving DecidableEq, Repr

/-- Modelled from the spec: the mutable state of one region as the write
path sees it: schema metadata, the committed sequence number, the active
memtable of the current version, and the write-ahead log of appended
(sequence, batch) records (spec sections 3 and 4.1). -/
structure Region where
  metadata : ColumnSchema
  committedSequence : Nat
  memtable : List Entry
  wal : List (Nat × List Mutation)
deriving DecidableEq, Repr

/-- Modelled from the spec: `write(batch)` validates the batch against
the current region metadata, appends it to the write-ahead log (the
parameter `walOk` stands for the I/O outcome of that append; a failure
is fatal and nothing is applied), then applies it to the active memtable
under the next sequence number and returns the number of rows affected
(spec sections 4.1 and 7). On any error the region state is returned
unchanged. -/
def Region.write (r : Region) (b : WriteBatch) (walOk : Bool) :
    Region × Except WriteError Nat :=
  if validateBatch r.metadata b then
    if walOk then
      let s := r.committedSequence + 1
      ({ metadata := r.metadata
         committedSequence := s
         memtable := r.memtable ++ applyMutations s b.mutations
         wal := r.wal ++ [(s, b.mutations)] },
        .ok (rowCount b.mutations))
    else (r, .error .walError)
  else (r, .error .validationError)

/-- A batch over the tested schema (timestamp, v0), as built by
`new_write_batch_for_test`. -/
def newTestBatch (ms : List Mutation) : WriteBatch :=
  { columns := testColumns, mutations := ms }

/-- A freshly created region with the tested schema: empty memtable,
empty log, committed sequence 0. -/
def newRegion : Region :=
  { metadata := testColumns, committedSequence := 0, memtable := [], wal := [] }

/-- A successful write of a test batch (the path taken by
`TesterBase::put` and `TesterBase::delete`, which unwrap the result). -/
def writeOk (r : Region) (ms : List Mutation) : Region :=
  (r.write (newTestBatch ms) true).1

/-- Apply a list of write batches to a fresh region in order. -/
def applyBatches (bs : List (List Mutation)) : Region :=
  bs.foldl writeOk newRegion

/-- Modelled from the spec: the entry of key `k` visible at a sequence
ceiling: among the entries for `k` whose sequence number is at most the
ceiling, the one with the highest sequence number, later-inserted
entries shadowing earlier ones (spec section 4.2). On the insertion-
ordered memtable this is the last such entry. -/
def visibleEntry (mem : List Entry) (ceil : Nat) (k : Int) : Option Entry :=
  (mem.filter (fun e => decide (e.key = k ∧ e.seq ≤ ceil))).getLast?

/-- The value of key `k` visible at a sequence ceiling: the value of the
visible entry when it is a put, nothing when it is a delete tombstone or
when no entry is visible. -/
def visibleValue (mem : List Entry) (ceil : Nat) (k : Int) : Option (Option Int) :=
  match visibleEntry mem ceil k with
  | some e => match e.op with
    | .put => some e.value
    | .delete => none
  | none => none

/-- Scan of a memtable at a sequence ceiling: every key with a visible
put value, in ascending key order, paired with that value. -/
def scanAt (mem : List Entry) (ceil : Nat) : List (Int × Option Int) :=
  (List.insertionSort (· ≤ ·) (mem.map Entry.key).dedup).filterMap
    (fun k => (visibleValue mem ceil k).map (fun v => (k, v)))

/-- The full scan of a region (`TesterBase::full_scan`): scan the active
memtable with the ceiling at the committed sequence. -/
def fullScan (r : Region) : List (Int × Option Int) :=
  scanAt r.memtable r.committedSequence

/-- The keys touched by a batch of mutations. -/
def mutationKeys (ms : List Mutation) : List Int :=
  ms.flatMap (fun m => match m with
    | .putRows rows => rows.map Prod.fst
    | .deleteKeys keys => keys)

/-- The last entry for key `k` in a memtable in insertion order,
regardless of any ceiling. -/
def lastOpEntry (mem : List Entry) (k : Int) : Option Entry :=
  (mem.filter (fun e => decide (e.key = k))).getLast?

/-- Modelled from the spec: replay of the write-ahead log from a given
sequence number: every record with a strictly larger sequence number is
re-applied, in append order, to a memtable (spec section 4.1 `replay`
and 4.3 `replay(from_sequence)`). -/
def replayEntries (wal : List (Nat × List Mutation)) (fromSeq : Nat) : List Entry :=
  wal.flatMap (fun rec => if fromSeq < rec.1 then applyMutations rec.1 rec.2 else [])

/-- Replay the write-ahead log from `fromSeq` into the memtable `mem`. -/
def replayInto (mem : List Entry) (wal : List (Nat × List Mutation)) (fromSeq : Nat) :
    List Entry :=
  mem ++ replayEntries wal fromSeq

/-! ## Concrete scenarios from the tests -/

/-- The region metadata built by `build_region_meta` in the manifest
scenario; only its identity matters. -/
def manifestTestMeta : RegionMetadata :=
  { regionName := "region-manifest-test" }

/-- The edit `build_region_edit(1, ["f1"], [])`. -/
def manifestEditF1 : RegionEdit :=
  { flushedSequence := 1
    filesToAdd := [{ fileName := "f1", level := 0 }]
    filesToRemove := [] }

/-- The edit `build_region_edit(2, ["f2", "f3"], [])`. -/
def manifestEditF2F3 : RegionEdit :=
  { flushedSequence := 2
    filesToAdd := [{ fileName := "f2", level := 0 }, { fileName := "f3", level := 0 }]
    filesToRemove := [] }

/-- The three `update` calls of `test_recover_region_manifets`
(tests.rs lines 287-316): a `Change` with committed sequence 40, one
record with the two `Edit` actions, then a `Change` with committed
sequence 42. -/
def manifestScenarioUpdates : List RegionMetaActionList :=
  [[RegionMetaAction.change { metadata := manifestTestMeta, committedSequence := 40 }],
   [RegionMetaAction.edit manifestEditF1, RegionMetaAction.edit manifestEditF2F3],
   [RegionMetaAction.change { metadata := manifestTestMeta, committedSequence := 42 }]]

/-- The manifest produced by the scenario updates. -/
def manifestScenario : RegionManifest :=
  applyUpdates manifestScenarioUpdates

/-- The put batch of scenario A: rows (t=0, v0=None) and
(t=1, v0=Some 5). -/
def scenarioPut : List Mutation :=
  [Mutation.putRows [(0, none), (1, some 5)]]

/-- The delete batch of scenario B: delete key t=0. -/
def scenarioDelete : List Mutation :=
  [Mutation.deleteKeys [0]]

/-! ## Spec-side definitions

These restate, in the words of the claims, the properties to be compared
with the model above. -/

/-- The edit carried by an action, when it is an `Edit`. -/
def actionEdit : RegionMetaAction → Option RegionEdit
  | .edit e => some e
  | .change _ => none

/-- The `Edit` actions contained in a list of `update` calls, in order. -/
def specEditsOf (us : List RegionMetaActionList) : List RegionEdit :=
  us.flatten.filterMap actionEdit

/-- In the words of claim C2: the file `f` belongs to the union of all
Edit-added files that no later Edit removed. -/
def specFileSurvives : List RegionEdit → FileMeta → Prop
  | [], _ => False
  | e :: rest, f =>
      (f ∈ e.filesToAdd ∧ ∀ e2 ∈ rest, f.fileName ∉ e2.filesToRemove) ∨
        specFileSurvives rest f

/-- The operations a single mutation addresses to key `k`: each put row
for `k` contributes its value, each delete of `k` a tombstone. -/
def specRowOpsForMutation (k : Int) : Mutation → List (OpType × Option Int)
  | .putRows rows =>
      (rows.filter (fun r => decide (r.1 = k))).map (fun r => (OpType.put, r.2))
  | .deleteKeys keys =>
      (keys.filter (fun k2 => decide (k2 = k))).map (fun _ => (OpType.delete, none))

/-- The operations addressing key `k` in a list of write batches, in
write order (batches are assigned strictly increasing sequence numbers,
so this order is the sequence order of claim C3). -/
def specRowOpsFor (k : Int) (bs : List (List Mutation)) : List (OpType × Option Int) :=
  bs.flatMap (fun ms => ms.flatMap (specRowOpsForMutation k))

/-- In the words of claim C3: the value a full scan must return for key
`k` after the batches `bs`: the value of the last put for `k` when no
later delete shadows it, nothing when the last operation on `k` is a
delete or `k` was never written. -/
def specVisible (bs : List (List Mutation)) (k : Int) : Option (Option Int) :=
  match (specRowOpsFor k bs).getLast? with
  | some (OpType.put, v) => some v
  | some (OpType.delete, _) => none
  | none => none

/-- The memtable contents produced by applying batches in order starting
above sequence number `s`: batch `i` (0-based) receives sequence
`s + i + 1`. -/
def entriesAux (s : Nat) : List (List Mutation) → List Entry
  | [] => []
  | b :: rest => applyMutations (s + 1) b ++ entriesAux (s + 1) rest

/-- Cumulative file set produced by folding edits over a start set: each
edit first removes its named files, then appends its additions. -/
def foldFiles (S : List FileMeta) : List RegionEdit → List FileMeta
  | [] => S
  | e :: rest =>
      foldFiles (S.filter (fun f => !(decide (f.fileName ∈ e.filesToRemove))) ++ e.filesToAdd) rest

/-- The edits carried by a list of (manifest version, action) pairs. -/
def editsOfPairs (l : List (Nat × RegionMetaAction)) : List RegionEdit :=
  l.filterMap (fun p => actionEdit p.2)

/-- The `Version` recovered in the manifest scenario, for the witness of
C2. -/
def c2WitnessVersion : Version :=
  { metadata := manifestTestMeta, manifestVersion := 1, flushedSequence := 2
    files := [{ fileName := "f1", level := 0 }, { fileName := "f2", level := 0 },
              { fileName := "f3", level := 0 }] }

/-- A batch that references a column absent from the test schema. -/
def badBatch : WriteBatch :=
  { columns := [("bogus", ColType.int64)], mutations := [] }

/-! ## Helper lemmas -/

/-- The manifest version counter advances by one per `update` call. -/
theorem foldl_update_lastVersion (us : List RegionMetaActionList) :
    ∀ m : RegionManifest,
      (us.foldl (fun m acts => (m.update acts).1) m).lastVersion = m.lastVersion + us.length := by
  induction us with
  | nil => intro m; simp
  | cons a rest ih =>
      intro m
      rw [List.foldl_cons, ih]
      simp [RegionManifest.update]
      omega

theorem applyEdits_append (l1 l2 : List RegionEdit) (v : Version) :
    v.applyEdits (l1 ++ l2) = (v.applyEdits l1).applyEdits l2 := by
  simp [Version.applyEdits, List.foldl_append]

theorem applyEdits_files (es : List RegionEdit) :
    ∀ v : Version, (v.applyEdits es).files = foldFiles v.files es := by
  induction es with
  | nil => intro v; rfl
  | cons e rest ih =>
      intro v
      show ((v.applyEdit e).applyEdits rest).files = foldFiles v.files (e :: rest)
      rw [ih]
      rfl

theorem getLast?_getD_cons (l : List Nat) : ∀ a d : Nat,
    ((a :: l).getLast?).getD d = (l.getLast?).getD a := by
  induction l with
  | nil => intro a d; rfl
  | cons b t ih =>
      intro a d
      rw [List.getLast?_cons_cons, ih b d, ih b a]

theorem applyEdits_flushedSequence (es : List RegionEdit) :
    ∀ v : Version,
      (v.applyEdits es).flushedSequence =
        ((es.map RegionEdit.flushedSequence).getLast?).getD v.flushedSequence := by
  induction es with
  | nil => intro v; rfl
  | cons e rest ih =>
      intro v
      show ((v.applyEdit e).applyEdits rest).flushedSequence = _
      rw [ih]
      rw [List.map_cons, getLast?_getD_cons]
      rfl

theorem applyEdits_metadata (es : List RegionEdit) :
    ∀ v : Version, (v.applyEdits es).metadata = v.metadata := by
  induction es with
  | nil => intro v; rfl
  | cons e rest ih =>
      intro v
      show ((v.applyEdit e).applyEdits rest).metadata = v.metadata
      rw [ih]
      rfl

/-- Once a version exists, replaying further actions folds exactly the
edit actions into it. -/
theorem recover_fold_some (l : List (Nat × RegionMetaAction)) :
    ∀ (st : RecoverState) (v : Version), st.version = some v →
      (l.foldl recoverStep st).version = some (v.applyEdits (editsOfPairs l)) := by
  induction l with
  | nil =>
      intro st v h
      simpa [editsOfPairs, Version.applyEdits] using h
  | cons p rest ih =>
      intro st v h
      rcases st with ⟨sv, sp, sr⟩
      cases h
      rcases p with ⟨ver, a⟩
      cases a with
      | change c =>
          rw [List.foldl_cons]
          have hstep : recoverStep ⟨some v, sp, sr⟩ (ver, .change c) =
              ⟨some v, sp, sr ++ [(c.committedSequence, c.metadata)]⟩ := rfl
          rw [hstep, ih _ v rfl]
          simp [editsOfPairs, actionEdit]
      | edit e =>
          rw [List.foldl_cons]
          have hstep : recoverStep ⟨some v, sp, sr⟩ (ver, .edit e) =
              ⟨some (v.applyEdit e), sp, sr⟩ := rfl
          rw [hstep, ih _ (v.applyEdit e) rfl]
          simp only [editsOfPairs, List.filterMap_cons, actionEdit]
          rfl

/-- While no version exists, replay buffers the edits; the first change
creates the version and folds every buffered and subsequent edit into
it, starting from an empty file set and flushed sequence 0. -/
theorem recover_fold_none (l : List (Nat × RegionMetaAction)) :
    ∀ st : RecoverState, st.version = none →
      ((l.foldl recoverStep st).version = none ∧
        (l.foldl recoverStep st).pending = st.pending ++ editsOfPairs l) ∨
      (∃ w : Version,
        (l.foldl recoverStep st).version = some w ∧
        w.files = foldFiles [] (st.pending ++ editsOfPairs l) ∧
        w.flushedSequence =
          (((st.pending ++ editsOfPairs l).map RegionEdit.flushedSequence).getLast?).getD 0) := by
  induction l with
  | nil =>
      intro st h
      left
      exact ⟨h, by simp [editsOfPairs]⟩
  | cons p rest ih =>
      intro st h
      rcases st with ⟨sv, sp, sr⟩
      cases h
      rcases p with ⟨ver, a⟩
      cases a with
      | edit e =>
          rw [List.foldl_cons]
          have hstep : recoverStep ⟨none, sp, sr⟩ (ver, .edit e) = ⟨none, sp ++ [e], sr⟩ := rfl
          rw [hstep]
          rcases ih ⟨none, sp ++ [e], sr⟩ rfl with ⟨h1, h2⟩ | ⟨w, h1, h2, h3⟩
          · left
            refine ⟨h1, ?_⟩
            rw [h2]
            simp [editsOfPairs, actionEdit]
          · right
            refine ⟨w, h1, ?_, ?_⟩
            · rw [h2]
              simp [editsOfPairs, actionEdit]
            · rw [h3]
              simp [editsOfPairs, actionEdit]
      | change c =>
          rw [List.foldl_cons]
          have hstep : recoverStep ⟨none, sp, sr⟩ (ver, .change c) =
              ⟨some (Version.applyEdits
                { metadata := c.metadata, manifestVersion := ver
                  flushedSequence := 0, files := [] } sp), [], sr⟩ := rfl
          rw [hstep]
          right
          refine ⟨_, recover_fold_some rest _ _ rfl, ?_, ?_⟩
          · rw [← applyEdits_append, applyEdits_files]
            simp [editsOfPairs, actionEdit]
          · rw [← applyEdits_append, applyEdits_flushedSequence]
            simp [editsOfPairs, actionEdit]

theorem foldl_update_records_snd (us : List RegionMetaActionList) :
    ∀ m : RegionManifest,
      ((us.foldl (fun m acts => (m.update acts).1) m).records).map Prod.snd =
        m.records.map Prod.snd ++ us := by
  induction us with
  | nil => intro m; simp
  | cons a rest ih =>
      intro m
      rw [List.foldl_cons, ih]
      simp [RegionManifest.update]

theorem allActions_map_snd (m : RegionManifest) :
    m.allActions.map Prod.snd = (m.records.map Prod.snd).flatten := by
  simp [RegionManifest.allActions, List.map_flatMap, List.map_map, Function.comp_def,
    List.flatMap_def]

theorem editsOfPairs_eq_filterMap (l : List (Nat × RegionMetaAction)) :
    editsOfPairs l = (l.map Prod.snd).filterMap actionEdit := by
  rw [List.filterMap_map]
  rfl

theorem specEditsOf_applyUpdates (us : List RegionMetaActionList) :
    editsOfPairs (applyUpdates us).allActions = specEditsOf us := by
  rw [editsOfPairs_eq_filterMap, allActions_map_snd]
  unfold applyUpdates
  rw [foldl_update_records_snd]
  simp [specEditsOf, RegionManifest.new]

theorem mem_foldFiles (es : List RegionEdit) :
    ∀ (S : List FileMeta) (f : FileMeta),
      f ∈ foldFiles S es ↔
        specFileSurvives es f ∨ (f ∈ S ∧ ∀ e ∈ es, f.fileName ∉ e.filesToRemove) := by
  induction es with
  | nil =>
      intro S f
      simp [foldFiles, specFileSurvives]
  | cons e rest ih =>
      intro S f
      rw [foldFiles, ih]
      simp only [specFileSurvives, List.mem_append, List.mem_filter, List.forall_mem_cons,
        Bool.not_eq_true', decide_eq_false_iff_not]
      tauto

theorem validateBatch_test (ms : List Mutation) :
    validateBatch testColumns (newTestBatch ms) = true := rfl

theorem writeOk_eq (r : Region) (ms : List Mutation) (h : r.metadata = testColumns) :
    writeOk r ms =
      { metadata := r.metadata
        committedSequence := r.committedSequence + 1
        memtable := r.memtable ++ applyMutations (r.committedSequence + 1) ms
        wal := r.wal ++ [(r.committedSequence + 1, ms)] } := by
  have hv : validateBatch r.metadata { columns := testColumns, mutations := ms } = true := by
    rw [h]
    exact validateBatch_test ms
  simp [writeOk, Region.write, hv, newTestBatch]

theorem foldl_writeOk_state (bs : List (List Mutation)) :
    ∀ r : Region, r.metadata = testColumns →
      (bs.foldl writeOk r).metadata = testColumns ∧
      (bs.foldl writeOk r).committedSequence = r.committedSequence + bs.length ∧
      (bs.foldl writeOk r).memtable = r.memtable ++ entriesAux r.committedSequence bs := by
  induction bs with
  | nil =>
      intro r h
      exact ⟨h, rfl, by simp [entriesAux]⟩
  | cons b rest ih =>
      intro r h
      rw [List.foldl_cons, writeOk_eq r b h]
      obtain ⟨h1, h2, h3⟩ :=
        ih { metadata := r.metadata, committedSequence := r.committedSequence + 1
             memtable := r.memtable ++ applyMutations (r.committedSequence + 1) b
             wal := r.wal ++ [(r.committedSequence + 1, b)] } h
      refine ⟨h1, ?_, ?_⟩
      · rw [h2]
        dsimp only
        simp only [List.length_cons]
        omega
      · rw [h3]
        dsimp only
        simp [entriesAux, List.append_assoc]

theorem applyBatches_metadata (bs : List (List Mutation)) :
    (applyBatches bs).metadata = testColumns :=
  (foldl_writeOk_state bs newRegion rfl).1

theorem applyBatches_committedSequence (bs : List (List Mutation)) :
    (applyBatches bs).committedSequence = bs.length := by
  have h := (foldl_writeOk_state bs newRegion rfl).2.1
  simpa [newRegion] using h

theorem applyBatches_memtable (bs : List (List Mutation)) :
    (applyBatches bs).memtable = entriesAux 0 bs := by
  have h := (foldl_writeOk_state bs newRegion rfl).2.2
  simpa [newRegion] using h

theorem applyBatches_snoc (bs : List (List Mutation)) (ms : List Mutation) :
    applyBatches (bs ++ [ms]) = writeOk (applyBatches bs) ms := by
  simp [applyBatches, List.foldl_append]

theorem applyMutations_cons (s : Nat) (m : Mutation) (ms : List Mutation) :
    applyMutations s (m :: ms) = applyMutation s m ++ applyMutations s ms := rfl

theorem seq_applyMutation (s : Nat) (m : Mutation) :
    ∀ e ∈ applyMutation s m, e.seq = s := by
  intro e he
  cases m with
  | putRows rows =>
      simp only [applyMutation, List.mem_map] at he
      obtain ⟨a, _, rfl⟩ := he
      rfl
  | deleteKeys keys =>
      simp only [applyMutation, List.mem_map] at he
      obtain ⟨a, _, rfl⟩ := he
      rfl

theorem seq_applyMutations (s : Nat) (ms : List Mutation) :
    ∀ e ∈ applyMutations s ms, e.seq = s := by
  intro e he
  simp only [applyMutations, List.mem_flatMap] at he
  obtain ⟨m, hm, hem⟩ := he
  exact seq_applyMutation s m e hem

theorem seq_entriesAux (bs : List (List Mutation)) :
    ∀ (s : Nat) (e : Entry), e ∈ entriesAux s bs → s < e.seq ∧ e.seq ≤ s + bs.length := by
  induction bs with
  | nil =>
      intro s e he
      simp [entriesAux] at he
  | cons b rest ih =>
      intro s e he
      rcases List.mem_append.mp he with h1 | h2
      · have h := seq_applyMutations (s + 1) b e h1
        simp only [List.length_cons]
        omega
      · have h := ih (s + 1) e h2
        simp only [List.length_cons]
        omega

theorem pairwise_seq_entriesAux (bs : List (List Mutation)) :
    ∀ s : Nat, (entriesAux s bs).Pairwise (fun a b => a.seq ≤ b.seq) := by
  induction bs with
  | nil =>
      intro s
      simp [entriesAux]
  | cons b rest ih =>
      intro s
      show (applyMutations (s + 1) b ++ entriesAux (s + 1) rest).Pairwise _
      rw [List.pairwise_append]
      refine ⟨?_, ih (s + 1), ?_⟩
      · refine List.pairwise_of_forall_mem_list ?_
        intro x hx y hy
        rw [seq_applyMutations _ _ x hx, seq_applyMutations _ _ y hy]
      · intro x hx y hy
        have hx1 := seq_applyMutations (s + 1) b x hx
        have hy1 := (seq_entriesAux rest (s + 1) y hy).1
        omega

theorem visibleEntry_mem (mem : List Entry) (ceil : Nat) (k : Int) (e : Entry)
    (h : visibleEntry mem ceil k = some e) : e ∈ mem ∧ e.key = k ∧ e.seq ≤ ceil := by
  have hm := List.mem_of_getLast?_eq_some h
  rw [List.mem_filter] at hm
  obtain ⟨h1, h2⟩ := hm
  have h3 := of_decide_eq_true h2
  exact ⟨h1, h3.1, h3.2⟩

theorem getLast?_last_of_pairwise {α : Type} (R : α → α → Prop) :
    ∀ l : List α, l.Pairwise R → ∀ e, l.getLast? = some e → ∀ b ∈ l, b = e ∨ R b e := by
  intro l
  induction l with
  | nil =>
      intro _ e h
      simp at h
  | cons x xs ih =>
      intro hp e h b hb
      rcases xs with _ | ⟨y, ys⟩
      · have hx : e = x := by
          simp [List.getLast?] at h
          exact h.symm
        subst hx
        rcases List.mem_singleton.mp hb with rfl
        exact Or.inl rfl
      · rw [List.getLast?_cons_cons] at h
        rcases List.mem_cons.mp hb with rfl | hb2
        · have he : e ∈ y :: ys := List.mem_of_getLast?_eq_some h
          exact Or.inr ((List.pairwise_cons.mp hp).1 e he)
        · exact ih (List.pairwise_cons.mp hp).2 e h b hb2

theorem visibleEntry_maximal (mem : List Entry)
    (hp : mem.Pairwise (fun a b => a.seq ≤ b.seq)) (ceil : Nat) (k : Int) (e : Entry)
    (h : visibleEntry mem ceil k = some e) :
    ∀ b ∈ mem, b.key = k → b.seq ≤ ceil → b.seq ≤ e.seq := by
  intro b hb hbk hbs
  have hpf := hp.filter (fun e => decide (e.key = k ∧ e.seq ≤ ceil))
  have hbf : b ∈ mem.filter (fun e => decide (e.key = k ∧ e.seq ≤ ceil)) :=
    List.mem_filter.mpr ⟨hb, by simp [hbk, hbs]⟩
  rcases getLast?_last_of_pairwise _ _ hpf e h b hbf with rfl | hle
  · exact Nat.le_refl _
  · exact hle

theorem getLast?_isSome_of_ne_nil {α : Type} (l : List α) (h : l ≠ []) :
    (l.getLast?).isSome = true := by
  cases l with
  | nil => exact absurd rfl h
  | cons x xs =>
      rw [List.getLast?_eq_getLast (x :: xs) (by simp)]
      rfl

theorem visibleEntry_isSome (mem : List Entry) (ceil : Nat) (k : Int)
    (h : ∃ b ∈ mem, b.key = k ∧ b.seq ≤ ceil) :
    (visibleEntry mem ceil k).isSome = true := by
  obtain ⟨b, hb, hbk, hbs⟩ := h
  have hbf : b ∈ mem.filter (fun e => decide (e.key = k ∧ e.seq ≤ ceil)) :=
    List.mem_filter.mpr ⟨hb, by simp [hbk, hbs]⟩
  exact getLast?_isSome_of_ne_nil _ (List.ne_nil_of_mem hbf)

theorem mem_scanAt (mem : List Entry) (ceil : Nat) (k : Int) (v : Option Int) :
    (k, v) ∈ scanAt mem ceil ↔ visibleValue mem ceil k = some v := by
  unfold scanAt
  rw [List.mem_filterMap]
  constructor
  · rintro ⟨k2, hk2, hmap⟩
    rw [Option.map_eq_some'] at hmap
    obtain ⟨w, hw, heq⟩ := hmap
    injection heq with heq1 heq2
    subst heq1
    subst heq2
    exact hw
  · intro hv
    refine ⟨k, ?_, by rw [hv]; rfl⟩
    rw [List.mem_insertionSort, List.mem_dedup, List.mem_map]
    unfold visibleValue at hv
    cases hve : visibleEntry mem ceil k with
    | none =>
        rw [hve] at hv
        simp at hv
    | some e =>
        have hm := visibleEntry_mem mem ceil k e hve
        exact ⟨e, hm.1, hm.2.1⟩

theorem scanAt_pairwise (mem : List Entry) (ceil : Nat) :
    (scanAt mem ceil).Pairwise (fun a b => a.1 < b.1) := by
  unfold scanAt
  have hs : (List.insertionSort (· ≤ ·) (mem.map Entry.key).dedup).Sorted (· < ·) := by
    refine List.Sorted.lt_of_le (List.sorted_insertionSort _ _) ?_
    exact ((List.perm_insertionSort _ _).nodup_iff).mpr (List.nodup_dedup _)
  refine List.Pairwise.filterMap _ ?_ hs
  intro a a2 hlt b hb b2 hb2
  simp only [Option.mem_def, Option.map_eq_some'] at hb hb2
  obtain ⟨w, _, rfl⟩ := hb
  obtain ⟨w2, _, rfl⟩ := hb2
  exact hlt

theorem filter_applyMutation (s : Nat) (k : Int) (m : Mutation) :
    ((applyMutation s m).filter (fun e => decide (e.key = k))).map (fun e => (e.op, e.value)) =
      specRowOpsForMutation k m := by
  cases m with
  | putRows rows =>
      simp only [applyMutation, specRowOpsForMutation, List.filter_map, List.map_map]
      rfl
  | deleteKeys keys =>
      simp only [applyMutation, specRowOpsForMutation, List.filter_map, List.map_map]
      rfl

theorem filter_applyMutations (s : Nat) (k : Int) (ms : List Mutation) :
    ((applyMutations s ms).filter (fun e => decide (e.key = k))).map (fun e => (e.op, e.value)) =
      ms.flatMap (specRowOpsForMutation k) := by
  induction ms with
  | nil => rfl
  | cons m rest ih =>
      rw [applyMutations_cons, List.filter_append, List.map_append, filter_applyMutation, ih,
        List.flatMap_cons]

theorem specRowOpsFor_cons (k : Int) (b : List Mutation) (rest : List (List Mutation)) :
    specRowOpsFor k (b :: rest) =
      b.flatMap (specRowOpsForMutation k) ++ specRowOpsFor k rest := rfl

theorem filter_entriesAux (bs : List (List Mutation)) :
    ∀ (s : Nat) (k : Int),
      ((entriesAux s bs).filter (fun e => decide (e.key = k))).map (fun e => (e.op, e.value)) =
        specRowOpsFor k bs := by
  induction bs with
  | nil =>
      intro s k
      rfl
  | cons b rest ih =>
      intro s k
      show (((applyMutations (s + 1) b ++ entriesAux (s + 1) rest).filter _).map _) = _
      rw [List.filter_append, List.map_append, filter_applyMutations, ih, specRowOpsFor_cons]

theorem visibleEntry_full (mem : List Entry) (ceil : Nat) (k : Int)
    (h : ∀ e ∈ mem, e.seq ≤ ceil) : visibleEntry mem ceil k = lastOpEntry mem k := by
  unfold visibleEntry lastOpEntry
  congr 1
  refine List.filter_congr ?_
  intro e he
  refine decide_eq_decide.mpr ?_
  constructor
  · intro hx
    exact hx.1
  · intro hx
    exact ⟨hx, h e he⟩

theorem visibleValue_full (bs : List (List Mutation)) (k : Int) :
    visibleValue (applyBatches bs).memtable (applyBatches bs).committedSequence k =
      specVisible bs k := by
  have hmem := applyBatches_memtable bs
  have hc := applyBatches_committedSequence bs
  have hbound : ∀ e ∈ (applyBatches bs).memtable,
      e.seq ≤ (applyBatches bs).committedSequence := by
    rw [hmem, hc]
    intro e he
    have h := (seq_entriesAux bs 0 e he).2
    omega
  unfold visibleValue
  rw [visibleEntry_full _ _ _ hbound, hmem]
  unfold specVisible
  rw [← filter_entriesAux bs 0 k, List.getLast?_map]
  unfold lastOpEntry
  cases ((entriesAux 0 bs).filter (fun e => decide (e.key = k))).getLast? with
  | none => rfl
  | some e =>
      rcases e with ⟨ek, ev, es, eop⟩
      cases eop <;> rfl

theorem applyMutation_map_key (s : Nat) (m : Mutation) :
    (applyMutation s m).map Entry.key =
      (match m with
        | .putRows rows => rows.map Prod.fst
        | .deleteKeys keys => keys) := by
  cases m with
  | putRows rows =>
      simp only [applyMutation, List.map_map]
      rfl
  | deleteKeys keys =>
      simp only [applyMutation, List.map_map]
      exact List.map_id keys

theorem applyMutations_map_key (s : Nat) (ms : List Mutation) :
    (applyMutations s ms).map Entry.key = mutationKeys ms := by
  induction ms with
  | nil => rfl
  | cons m rest ih =>
      rw [applyMutations_cons, List.map_append, applyMutation_map_key, ih]
      rfl

theorem mem_mutationKeys (s : Nat) (ms : List Mutation) (k : Int) :
    k ∈ mutationKeys ms ↔ ∃ e ∈ applyMutations s ms, e.key = k := by
  rw [← applyMutations_map_key s, List.mem_map]

/-! ## Claim theorems -/

/-- C1 counterexample: on the scenario of `test_recover_region_manifets`
the recovered `Version` has manifest version 1, not 3 as the claim
states (the value 3 is `manifest.last_version()`, tests.rs line 337,
while line 328 asserts `version.manifest_version() == 1`). -/
theorem c1_counterexample :
    (recoverFromManifest manifestScenario).1.map Version.manifestVersion = some 1 ∧
      some (1 : Nat) ≠ some 3 := by
  decide

/-- C1 (amended): after `update` with Change(committed_sequence=40),
then the two Edit actions (f1 at flushed sequence 1; f2, f3 at flushed
sequence 2), then Change(committed_sequence=42), recovery returns a
`Version` whose level-0 file set is f1, f2, f3, whose flushed sequence
is 2 and whose manifest version is 1 (the version of the record holding
the initial Change action), a recovered-metadata map whose only key is
42, and the manifest itself reports last version 3. -/
theorem c1_recover_scenario :
    (recoverFromManifest manifestScenario).1 =
      some { metadata := manifestTestMeta, manifestVersion := 1, flushedSequence := 2
             files := [{ fileName := "f1", level := 0 }, { fileName := "f2", level := 0 },
                       { fileName := "f3", level := 0 }] } ∧
      ((recoverFromManifest manifestScenario).1.map
        (fun v => (v.files.filter (fun f => f.level == 0)).map FileMeta.fileName)) =
        some ["f1", "f2", "f3"] ∧
      (recoverFromManifest manifestScenario).1.map Version.flushedSequence = some 2 ∧
      (recoverFromManifest manifestScenario).2 = [(42, manifestTestMeta)] ∧
      manifestScenario.lastVersion = 3 := by
  decide

/-- C2: for every manifest produced by a list of `update` calls, when
recovery yields a `Version`, its file set is exactly the union of all
Edit-added files that no later Edit removed, and its flushed sequence is
the flushed sequence of the last Edit action. -/
theorem c2_recover_roundtrip :
    ∀ (us : List RegionMetaActionList) (v : Version) (rec : List (Nat × RegionMetadata)),
      recoverFromManifest (applyUpdates us) = (some v, rec) →
      (∀ f : FileMeta, f ∈ v.files ↔ specFileSurvives (specEditsOf us) f) ∧
      (∀ e : RegionEdit, (specEditsOf us).getLast? = some e →
        v.flushedSequence = e.flushedSequence) := by
  intro us v rec h
  simp only [recoverFromManifest, Prod.mk.injEq] at h
  rcases recover_fold_none (applyUpdates us).allActions
      { version := none, pending := [], recovered := [] } rfl with ⟨h1, _⟩ | ⟨w, h1, h2, h3⟩
  · rw [h1] at h
    exact absurd h.1 (by simp)
  · rw [h1] at h
    have hw : w = v := Option.some.inj h.1
    subst hw
    rw [specEditsOf_applyUpdates] at h2 h3
    constructor
    · intro f
      rw [h2, mem_foldFiles]
      simp
    · intro e he
      rw [h3]
      simp only [List.nil_append, List.getLast?_map, he, Option.map_some]
      rfl

/-- Witness for C2 at the manifest scenario: the hypothesis holds there,
file f1 survives, and the flushed sequence is that of the last edit. -/
theorem c2_witness :
    recoverFromManifest (applyUpdates manifestScenarioUpdates) =
      (some c2WitnessVersion, [(42, manifestTestMeta)]) ∧
      (({ fileName := "f1", level := 0 } : FileMeta) ∈ c2WitnessVersion.files ↔
        specFileSurvives (specEditsOf manifestScenarioUpdates) { fileName := "f1", level := 0 }) ∧
      (specEditsOf manifestScenarioUpdates).getLast? = some manifestEditF2F3 ∧
      c2WitnessVersion.flushedSequence = manifestEditF2F3.flushedSequence := by
  have h : recoverFromManifest (applyUpdates manifestScenarioUpdates) =
      (some c2WitnessVersion, [(42, manifestTestMeta)]) := by decide
  have hc := c2_recover_roundtrip manifestScenarioUpdates c2WitnessVersion
    [(42, manifestTestMeta)] h
  exact ⟨h, hc.1 { fileName := "f1", level := 0 }, by decide,
    hc.2 manifestEditF2F3 (by decide)⟩

/-- C3: after any sequence of put and delete batches on a fresh region,
a full scan returns, for each key, exactly the value of the last put for
that key in sequence order, nothing for a key whose last operation is a
delete, with each key listed once in ascending order; concretely,
scenario A returns [(0, None), (1, Some 5)] and scenario B (after
deleting key 0) returns [(1, Some 5)]. -/
theorem c3_scan_last_write_wins :
    (∀ (bs : List (List Mutation)) (k : Int) (v : Option Int),
        ((k, v) ∈ fullScan (applyBatches bs)) ↔ specVisible bs k = some v) ∧
      (∀ bs : List (List Mutation),
        (fullScan (applyBatches bs)).Pairwise (fun a b => a.1 < b.1)) ∧
      fullScan (applyBatches [scenarioPut]) = [(0, none), (1, some 5)] ∧
      fullScan (applyBatches [scenarioPut, scenarioDelete]) = [(1, some 5)] := by
  refine ⟨?_, ?_, by decide, by decide⟩
  · intro bs k v
    rw [fullScan, mem_scanAt, visibleValue_full]
  · intro bs
    exact scanAt_pairwise _ _

/-- C6: a write on a reachable region is assigned the next sequence
number s: scanning at ceiling s sees, for every key the batch touches,
exactly the last entry of that batch, scanning at ceiling s - 1 sees
exactly what the region saw before the write, and in general an entry is
returned at a ceiling only if its sequence number is at most the ceiling
and is the highest such sequence number for its key, with an entry
returned whenever one qualifies. -/
theorem c6_sequence_visibility :
    ∀ (bs : List (List Mutation)) (ms : List Mutation) (k : Int),
      (k ∈ mutationKeys ms →
        visibleEntry (writeOk (applyBatches bs) ms).memtable
            ((applyBatches bs).committedSequence + 1) k =
          lastOpEntry (applyMutations ((applyBatches bs).committedSequence + 1) ms) k) ∧
      (visibleEntry (writeOk (applyBatches bs) ms).memtable
          ((applyBatches bs).committedSequence + 1 - 1) k =
        visibleEntry (applyBatches bs).memtable (applyBatches bs).committedSequence k) ∧
      (∀ (ceil : Nat) (e : Entry),
        visibleEntry (writeOk (applyBatches bs) ms).memtable ceil k = some e →
          e.key = k ∧ e.seq ≤ ceil ∧
            ∀ b ∈ (writeOk (applyBatches bs) ms).memtable,
              b.key = k → b.seq ≤ ceil → b.seq ≤ e.seq) ∧
      (∀ ceil : Nat,
        (∃ b ∈ (writeOk (applyBatches bs) ms).memtable, b.key = k ∧ b.seq ≤ ceil) →
          (visibleEntry (writeOk (applyBatches bs) ms).memtable ceil k).isSome = true) := by
  intro bs ms k
  have hmeta := applyBatches_metadata bs
  have hw := writeOk_eq (applyBatches bs) ms hmeta
  have hpair : (writeOk (applyBatches bs) ms).memtable.Pairwise (fun a b => a.seq ≤ b.seq) := by
    rw [← applyBatches_snoc, applyBatches_memtable]
    exact pairwise_seq_entriesAux _ 0
  refine ⟨?_, ?_, ?_, ?_⟩
  · intro hk
    rw [hw]
    dsimp only
    unfold visibleEntry lastOpEntry
    rw [List.filter_append]
    have hfe : (applyMutations ((applyBatches bs).committedSequence + 1) ms).filter
        (fun e => decide (e.key = k ∧ e.seq ≤ (applyBatches bs).committedSequence + 1)) =
        (applyMutations ((applyBatches bs).committedSequence + 1) ms).filter
          (fun e => decide (e.key = k)) := by
      refine List.filter_congr ?_
      intro e he
      refine decide_eq_decide.mpr ?_
      have hs := seq_applyMutations _ _ e he
      constructor
      · intro hx
        exact hx.1
      · intro hx
        exact ⟨hx, by omega⟩
    rw [hfe]
    refine List.getLast?_append_of_ne_nil _ ?_
    obtain ⟨e, he, hek⟩ :=
      (mem_mutationKeys ((applyBatches bs).committedSequence + 1) ms k).mp hk
    exact List.ne_nil_of_mem (List.mem_filter.mpr ⟨he, by simp [hek]⟩)
  · rw [hw]
    dsimp only
    unfold visibleEntry
    rw [List.filter_append]
    have hfe : (applyMutations ((applyBatches bs).committedSequence + 1) ms).filter
        (fun e => decide (e.key = k ∧ e.seq ≤ (applyBatches bs).committedSequence + 1 - 1)) =
        [] := by
      rw [List.filter_eq_nil_iff]
      intro e he
      have hs := seq_applyMutations _ _ e he
      simp only [decide_eq_true_eq]
      intro hx
      omega
    rw [hfe, List.append_nil]
    congr 1
  · intro ceil e h
    have hm := visibleEntry_mem _ _ _ _ h
    exact ⟨hm.2.1, hm.2.2, visibleEntry_maximal _ hpair _ _ _ h⟩
  · intro ceil h
    exact visibleEntry_isSome _ _ _ h

/-- Witness for C6 at scenario A followed by the scenario B delete of
key 0, whose assigned sequence number is 2. -/
theorem c6_witness :
    (0 : Int) ∈ mutationKeys scenarioDelete ∧
      visibleEntry (writeOk (applyBatches [scenarioPut]) scenarioDelete).memtable
          ((applyBatches [scenarioPut]).committedSequence + 1) 0 =
        lastOpEntry
          (applyMutations ((applyBatches [scenarioPut]).committedSequence + 1) scenarioDelete)
          0 ∧
      visibleEntry (writeOk (applyBatches [scenarioPut]) scenarioDelete).memtable
          ((applyBatches [scenarioPut]).committedSequence + 1 - 1) 0 =
        visibleEntry (applyBatches [scenarioPut]).memtable
          (applyBatches [scenarioPut]).committedSequence 0 ∧
      visibleEntry (writeOk (applyBatches [scenarioPut]) scenarioDelete).memtable 2 0 =
        some { key := 0, value := none, seq := 2, op := OpType.delete } ∧
      ({ key := 0, value := none, seq := 2, op := OpType.delete } : Entry).key = 0 ∧
      ({ key := 0, value := none, seq := 2, op := OpType.delete } : Entry).seq ≤ 2 ∧
      (∀ b ∈ (writeOk (applyBatches [scenarioPut]) scenarioDelete).memtable,
        b.key = 0 → b.seq ≤ 2 →
          b.seq ≤ ({ key := 0, value := none, seq := 2, op := OpType.delete } : Entry).seq) ∧
      (visibleEntry (writeOk (applyBatches [scenarioPut]) scenarioDelete).memtable 2 0).isSome =
        true := by
  have h1 := (c6_sequence_visibility [scenarioPut] scenarioDelete 0).1 (by decide)
  have h2 := (c6_sequence_visibility [scenarioPut] scenarioDelete 0).2.1
  have h3 := (c6_sequence_visibility [scenarioPut] scenarioDelete 0).2.2.1 2
    { key := 0, value := none, seq := 2, op := OpType.delete } (by decide)
  have h4 := (c6_sequence_visibility [scenarioPut] scenarioDelete 0).2.2.2 2
    ⟨{ key := 0, value := none, seq := 2, op := OpType.delete }, by decide⟩
  exact ⟨by decide, h1, h2, by decide, h3.1, h3.2.1, h3.2.2, h4⟩

/-- C4: recovery is deterministic: two manifests produced by the same
ordered list of `update` calls recover to the same result. -/
theorem c4_recover_deterministic :
    ∀ (us : List RegionMetaActionList) (m1 m2 : RegionManifest),
      m1 = applyUpdates us → m2 = applyUpdates us →
      recoverFromManifest m1 = recoverFromManifest m2 := by
  intro us m1 m2 h1 h2
  rw [h1, h2]

/-- Witness for C4 at the manifest scenario. -/
theorem c4_witness :
    manifestScenario = applyUpdates manifestScenarioUpdates ∧
      manifestScenario = applyUpdates manifestScenarioUpdates ∧
      recoverFromManifest manifestScenario = recoverFromManifest manifestScenario :=
  ⟨rfl, rfl, c4_recover_deterministic manifestScenarioUpdates _ _ rfl rfl⟩

/-- C5: `update` appends the action list as a single record, assigns the
next (strictly increasing) manifest version and returns it; on a fresh
manifest, `last_version` after N updates equals N. -/
theorem c5_update_monotonic :
    ∀ (us : List RegionMetaActionList) (m : RegionManifest) (acts : RegionMetaActionList),
      (applyUpdates us).lastVersion = us.length ∧
      (m.update acts).2 = m.lastVersion + 1 ∧
      (m.update acts).1.lastVersion = m.lastVersion + 1 ∧
      (m.update acts).1.records = m.records ++ [(m.lastVersion + 1, acts)] := by
  intro us m acts
  refine ⟨?_, rfl, rfl, rfl⟩
  simpa [applyUpdates, RegionManifest.new] using foldl_update_lastVersion us RegionManifest.new

/-- C7: replaying the write-ahead log from a given sequence number into
two freshly constructed (empty) memtables yields identical content,
hence identical visible values at every ceiling and key. -/
theorem c7_replay_idempotent :
    ∀ (wal : List (Nat × List Mutation)) (fromSeq : Nat) (m1 m2 : List Entry),
      m1 = [] → m2 = [] →
      replayInto m1 wal fromSeq = replayInto m2 wal fromSeq ∧
      ∀ (ceil : Nat) (k : Int),
        visibleValue (replayInto m1 wal fromSeq) ceil k =
          visibleValue (replayInto m2 wal fromSeq) ceil k := by
  intro wal fromSeq m1 m2 h1 h2
  subst h1
  subst h2
  exact ⟨rfl, fun _ _ => rfl⟩

/-- Witness for C7 on a one-record log replayed from sequence 0. -/
theorem c7_witness :
    ([] : List Entry) = [] ∧
      replayInto [] [(1, scenarioPut)] 0 = replayInto [] [(1, scenarioPut)] 0 ∧
      visibleValue (replayInto [] [(1, scenarioPut)] 0) 1 0 =
        visibleValue (replayInto [] [(1, scenarioPut)] 0) 1 0 :=
  ⟨rfl, (c7_replay_idempotent [(1, scenarioPut)] 0 [] [] rfl rfl).1,
    (c7_replay_idempotent [(1, scenarioPut)] 0 [] [] rfl rfl).2 1 0⟩

/-- C8: `write` is atomic on error: every error leaves the region state
unchanged; an invalid batch is rejected with a validation error
whatever the log outcome would be (so before any log append); a valid
batch whose log append fails is fatal with `WalError` and is not applied
to the memtable. -/
theorem c8_write_atomic :
    ∀ (r : Region) (b : WriteBatch) (walOk : Bool),
      (∀ err, (r.write b walOk).2 = Except.error err → (r.write b walOk).1 = r) ∧
      (validateBatch r.metadata b = false →
        r.write b walOk = (r, Except.error WriteError.validationError)) ∧
      (validateBatch r.metadata b = true →
        r.write b false = (r, Except.error WriteError.walError)) := by
  intro r b walOk
  refine ⟨?_, ?_, ?_⟩
  · intro err h
    by_cases hv : validateBatch r.metadata b
    · by_cases hw : walOk
      · simp [Region.write, hv, hw] at h
      · simp [Region.write, hv, hw]
    · simp [Region.write, hv]
  · intro hv
    simp [Region.write, hv]
  · intro hv
    simp [Region.write, hv]

/-- Witness for C8: the invalid batch is rejected with the region
unchanged, and a valid batch with a failing log append returns the
fatal `WalError` with the region unchanged. -/
theorem c8_witness :
    validateBatch newRegion.metadata badBatch = false ∧
      newRegion.write badBatch true = (newRegion, Except.error WriteError.validationError) ∧
      validateBatch newRegion.metadata (newTestBatch scenarioPut) = true ∧
      newRegion.write (newTestBatch scenarioPut) false =
        (newRegion, Except.error WriteError.walError) :=
  ⟨by decide, (c8_write_atomic newRegion badBatch true).2.1 (by decide), by decide,
    (c8_write_atomic newRegion (newTestBatch scenarioPut) false).2.2 (by decide)⟩

/-- C9: recovering from a manifest that contains no actions returns no
`Version` (rather than an error or an empty one). -/
theorem c9_recover_empty :
    ∀ m : RegionManifest, m.allActions = [] → (recoverFromManifest m).1 = none := by
  intro m h
  simp [recoverFromManifest, h]

/-- Witness for C9 at the fresh manifest. -/
theorem c9_witness :
    RegionManifest.new.allActions = [] ∧
      (recoverFromManifest RegionManifest.new).1 = none :=
  ⟨rfl, c9_recover_empty RegionManifest.new rfl⟩

/-- C10: `Helper::try_into_vector` returns `Ok` exactly on the supported
arrow data types (Null, Boolean, LargeBinary, the integer and float
types, Utf8, Date32, Date64, List and the four Timestamp units) and
lands in the `unimplemented!` panic on every other arrow data type. -/
theorem c10_try_into_vector_total :
    ∀ dt : ArrowDataType,
      (tryIntoVector dt).isOk = claimSupported dt ∧
      (tryIntoVector dt = ConvOutcome.panicUnimplemented ↔ claimSupported dt = false) := by
  intro dt
  cases dt <;> (try (rename_i u; cases u)) <;>
    simp [tryIntoVector, claimSupported, ConvOutcome.isOk]

end GreptimeSpec
